import Mathlib

/-!
Shallow embedding of the snekgame core (src/game.rs, src/input.rs) and
verification of its specification claims.

Machine integers (`usize`, `u32`) are modelled as `Nat`; the places where the
source relies on bounded arithmetic (`saturating_add` at `u32::MAX`) carry the
bound explicitly.  The `StdRng` pseudo-random generator is an external crate;
it is modelled as a stream of naturals (`List Nat`), one element consumed per
draw, with `gen_range(0..n)` modelled as `head % n` (which satisfies the same
range contract).  Fallible operations (`panic`, bounded moves) return `Option`.
-/

namespace Snek

/-- Grid coordinate, `struct Coords { x: usize, y: usize }`. -/
structure Coords where
  x : Nat
  y : Nat
deriving DecidableEq, Repr

/-- Movement direction, `enum Dir { Left, Right, Up, Down }`. -/
inductive Dir
  | Left
  | Right
  | Up
  | Down
deriving DecidableEq, Repr

/-- The two-bit encoding of `Dir` fixed by `#[repr(u8)]` in the source:
least significant bit is the sign, the next bit the axis. -/
def Dir.code : Dir → Nat
  | .Left => 0
  | .Right => 1
  | .Up => 2
  | .Down => 3

/-- `Dir::is_perpendicular`: mask off the axis bit and compare. -/
def Dir.is_perpendicular (a b : Dir) : Bool :=
  (a.code &&& 2) != (b.code &&& 2)

/-- The direction opposite to a given one (used to state spec properties;
the source has no such function). -/
def Dir.opposite : Dir → Dir
  | .Left => .Right
  | .Right => .Left
  | .Up => .Down
  | .Down => .Up

/-- `Coords::move_wrapping`: move one cell in `dir`, wrapping on a `w`×`h`
field.  The source computes `(y + h - 1) % h` etc. in `usize`. -/
def Coords.move_wrapping (c : Coords) (dir : Dir) (w h : Nat) : Coords :=
  match dir with
  | .Up => ⟨c.x, (c.y + h - 1) % h⟩
  | .Down => ⟨c.x, (c.y + 1) % h⟩
  | .Left => ⟨(c.x + w - 1) % w, c.y⟩
  | .Right => ⟨(c.x + 1) % w, c.y⟩

/-- `Coords::move_bumping`: move one cell in `dir`, `none` if the result
would leave the `w`×`h` field. -/
def Coords.move_bumping (c : Coords) (dir : Dir) (w h : Nat) : Option Coords :=
  match dir with
  | .Up => if 0 < c.y then some ⟨c.x, c.y - 1⟩ else none
  | .Down => if c.y < h - 1 then some ⟨c.x, c.y + 1⟩ else none
  | .Left => if 0 < c.x then some ⟨c.x - 1, c.y⟩ else none
  | .Right => if c.x < w - 1 then some ⟨c.x + 1, c.y⟩ else none

/-- `Coords::compare`: the guard chain of the source, in order; the final
`panic!` arm is modelled as `none`. -/
def Coords.compare (self other : Coords) (w h : Nat) : Option Dir :=
  if self.x = 0 ∧ other.x = w - 1 then some .Right
  else if self.x = w - 1 ∧ other.x = 0 then some .Left
  else if other.x < self.x then some .Right
  else if self.x < other.x then some .Left
  else if self.y = 0 ∧ other.y = h - 1 then some .Down
  else if self.y = h - 1 ∧ other.y = 0 then some .Up
  else if other.y < self.y then some .Down
  else if self.y < other.y then some .Up
  else none

/-- The behaviour the specification claims for `Coords::compare`, written
from the claim's words and independently of the source: the direction that
points from `other` toward `self`, with tie-breaks resolved in the order
horizontal wrap-adjacency (the pair joins across the vertical seam), generic
horizontal adjacency, vertical wrap-adjacency, generic vertical adjacency.
It is compared with the source's `Coords.compare` in the C4 theorem. -/
def claimed_compare (self other : Coords) (w h : Nat) : Option Dir :=
  if other.x = w - 1 ∧ self.x = 0 then some .Right
  else if other.x = 0 ∧ self.x = w - 1 then some .Left
  else if other.x + 1 = self.x then some .Right
  else if self.x + 1 = other.x then some .Left
  else if other.y = h - 1 ∧ self.y = 0 then some .Down
  else if other.y = 0 ∧ self.y = h - 1 then some .Up
  else if other.y + 1 = self.y then some .Down
  else if self.y + 1 = other.y then some .Up
  else none

/-- `struct Food { pos: Coords, id: usize }`. -/
structure Food where
  pos : Coords
  id : Nat
deriving DecidableEq, Repr

/-- `struct GameConf`. -/
structure GameConf where
  food_to_speed_up : Nat
  food_n : Nat
  initial_speed : Nat
  height : Nat
  width : Nat
  initial_length : Nat
  seed : Nat
  solid_walls : Bool
deriving DecidableEq, Repr

/-- `enum GameStatus { Win, Dead, Ongoing }`. -/
inductive GameStatus
  | Win
  | Dead
  | Ongoing
deriving DecidableEq, Repr

/-- `struct GameState`.  The `StdRng` field is modelled as the remaining
stream of draws. -/
structure GameState where
  conf : GameConf
  snake : List Coords
  snake_dir : Dir
  food : List Food
  status : GameStatus
  score : Nat
  speed : Nat
  rng : List Nat
deriving DecidableEq, Repr

/-- Largest value of a `u32`, the saturation point of `saturating_add`. -/
def u32Max : Nat := 4294967295

/-- The contents of the `taken_spots` hash set built in
`find_new_food_place`: the distinct cells occupied by the snake body or by
food. -/
def taken_spots (s : GameState) : List Coords :=
  (s.snake ++ s.food.map Food.pos).dedup

/-- One iteration of the scan loop's cursor update in `find_new_food_place`:
`coords.x += 1; if coords.x >= width { coords.x = 0; coords.y += 1 }`. -/
def nextCell (w : Nat) (c : Coords) : Coords :=
  if w ≤ c.x + 1 then ⟨0, c.y + 1⟩ else ⟨c.x + 1, c.y⟩

/-- The scan loop of `find_new_food_place`, made structurally recursive on a
fuel argument: starting at cell `c` with `i` free cells already passed, stop
at the cell at which the count of free cells first exceeds `k`. -/
def scanLoop (taken : Coords → Bool) (w : Nat) :
    Nat → Coords → Nat → Nat → Option Coords
  | 0, _, _, _ => none
  | fuel + 1, c, i, k =>
    let i2 := if taken c then i else i + 1
    if k < i2 then some c
    else scanLoop taken w fuel (nextCell w c) i2 k

/-- `GameState::find_new_food_place`.  Returns the new food (if any) together
with the remaining RNG stream.  `gen_range(0..spots)` is the first draw modulo
`spots`; the food id is the second draw.  The fuel `k + 1 + taken.length`
always suffices for the scan loop to break (proved below), matching the
always-terminating source loop. -/
def find_new_food_place (s : GameState) : Option Food × List Nat :=
  let taken := taken_spots s
  let spots := s.conf.height * s.conf.width - taken.length
  if spots = 0 then (none, s.rng)
  else
    let k := s.rng.headD 0 % spots
    let rng1 := s.rng.tail
    match scanLoop (fun c => decide (c ∈ taken)) s.conf.width
        (k + 1 + taken.length) ⟨0, 0⟩ 0 k with
    | some c => (some ⟨c, rng1.headD 0⟩, rng1.tail)
    | none => (none, rng1.tail)

/-- The food-placing loop of `GameState::new`: `food_n` times, place a food
or set status to `Win` and stop. -/
def place_n_foods : Nat → GameState → GameState
  | 0, s => s
  | n + 1, s =>
    match find_new_food_place s with
    | (some f, r) => place_n_foods n { s with food := s.food ++ [f], rng := r }
    | (none, r) => { s with status := .Win, rng := r }

/-- `GameState::new`.  The seeded `StdRng` is modelled by the stream `rng0`
handed in beside the config.  The initial snake is
`(tail_x..=head_x).rev()` at row `height / 2`, head first. -/
def GameState.new (conf : GameConf) (rng0 : List Nat) : GameState :=
  let y := conf.height / 2
  let head_x := (conf.width - 1) / 2 + conf.initial_length / 2
  let tail_x := head_x + 1 - conf.initial_length
  let snake := ((List.range' tail_x (head_x + 1 - tail_x)).reverse).map
    (fun x => ⟨x, y⟩)
  place_n_foods conf.food_n
    { conf := conf, snake := snake, snake_dir := .Right, food := [],
      status := .Ongoing, score := 0, speed := conf.initial_speed, rng := rng0 }

/-- The first statement of `make_step`: install the pending turn, if any. -/
def apply_turn (s : GameState) (turn : Option Dir) : GameState :=
  match turn with
  | some d => { s with snake_dir := d }
  | none => s

/-- The candidate new head position computed in `make_step` (after the turn
has been installed): bounded movement under solid walls, wrapping otherwise.
`none` is the wall-collision case. -/
def candidate_head (s : GameState) : Option Coords :=
  if s.conf.solid_walls then
    (s.snake.headD ⟨0, 0⟩).move_bumping s.snake_dir s.conf.width s.conf.height
  else
    some ((s.snake.headD ⟨0, 0⟩).move_wrapping s.snake_dir s.conf.width
      s.conf.height)

/-- The remainder of `make_step` once the candidate head `nh` exists:
pop the tail, test self-collision, push the new head, and handle food,
score and speed exactly in the source's order. -/
def step_after_head (s : GameState) (nh : Coords) : GameState :=
  let old_tail := s.snake.getLastD ⟨0, 0⟩
  let snake1 := s.snake.dropLast
  if nh ∈ snake1 then { s with snake := snake1, status := .Dead }
  else
    let snake2 := nh :: snake1
    match s.food.findIdx? (fun f => f.pos == nh) with
    | none => { s with snake := snake2 }
    | some i =>
      let food1 := s.food.eraseIdx i
      let s1 := { s with snake := snake2 ++ [old_tail], food := food1 }
      let s2 :=
        match find_new_food_place s1 with
        | (some nf, r) => { s1 with food := food1 ++ [nf], rng := r }
        | (none, r) => { s1 with status := .Win, rng := r }
      let score2 := s2.score + 1
      let speed2 :=
        if s2.conf.food_to_speed_up ≠ 0 then
          min (s2.conf.initial_speed + score2 / s2.conf.food_to_speed_up) u32Max
        else s2.speed
      { s2 with score := score2, speed := speed2 }

/-- `GameState::make_step`. -/
def make_step (s : GameState) (turn : Option Dir) : GameState :=
  let s1 := apply_turn s turn
  match candidate_head s1 with
  | none => { s1 with status := .Dead }
  | some nh => step_after_head s1 nh

/-- `turn_to_do` from src/input.rs, with the buffer's live contents as a
list (oldest first): dequeue until a direction perpendicular to the snake's
current direction is found. -/
def turn_to_do : List Dir → Dir → Option Dir
  | [], _ => none
  | d :: rest, cur => if d.is_perpendicular cur then some d else turn_to_do rest cur

/-- The `spots` quantity of `find_new_food_place`: board area minus the
number of distinct occupied cells. -/
def free_spots (s : GameState) : Nat :=
  s.conf.height * s.conf.width - (taken_spots s).length

/-- The cell reached after `t` steps of the row-major scan of
`find_new_food_place` on a width-`w` board. -/
def ofIndex (w t : Nat) : Coords := ⟨t % w, t / w⟩

/-- Config invariants enforced by the argument validator (src/args.rs)
before a `GameState` is built. -/
def ValidConf (conf : GameConf) : Prop :=
  0 < conf.width ∧ 0 < conf.height ∧
  0 < conf.initial_length ∧ conf.initial_length ≤ conf.width

/-- The in-bounds invariant of the simulation: positive board, nonempty
snake, and every coordinate held by the state inside the board. -/
def StateWF (s : GameState) : Prop :=
  0 < s.conf.width ∧ 0 < s.conf.height ∧ s.snake ≠ [] ∧
  (∀ c ∈ s.snake, c.x < s.conf.width ∧ c.y < s.conf.height) ∧
  (∀ f ∈ s.food, f.pos.x < s.conf.width ∧ f.pos.y < s.conf.height)

/-- States reachable from construction by a sequence of `make_step` calls. -/
inductive Reachable (conf : GameConf) (rng0 : List Nat) : GameState → Prop
  | base : Reachable conf rng0 (GameState.new conf rng0)
  | step (s : GameState) (turn : Option Dir) :
      Reachable conf rng0 s → Reachable conf rng0 (make_step s turn)

/-- A 2×1 wrapping board, snake of length 2 filling it, no food. -/
def confWrap : GameConf := ⟨4, 0, 6, 1, 2, 2, 0, false⟩

/-- Tail-chase state on `confWrap`: the head can only enter the cell the
tail is about to vacate. -/
def stTailChase : GameState :=
  ⟨confWrap, [⟨1, 0⟩, ⟨0, 0⟩], .Right, [], .Ongoing, 0, 6, []⟩

/-- The same position with status already `Dead`. -/
def stDead : GameState :=
  ⟨confWrap, [⟨1, 0⟩, ⟨0, 0⟩], .Right, [], .Dead, 0, 6, []⟩

/-- A 5×5 wrapping board with no food and no speed-up. -/
def confPlain : GameConf := ⟨0, 0, 6, 5, 5, 5, 0, false⟩

/-- A hook-shaped snake on `confPlain` whose head, turned `Down`, runs into
its own body. -/
def stLoop : GameState :=
  ⟨confPlain, [⟨1, 1⟩, ⟨1, 2⟩, ⟨2, 2⟩, ⟨2, 1⟩, ⟨3, 1⟩], .Left, [], .Ongoing, 0, 6, []⟩

/-- A 3×1 board with speed-up threshold 1 and one food. -/
def confEat : GameConf := ⟨1, 1, 6, 1, 3, 1, 0, false⟩

/-- A state on `confEat` about to eat the food at (1,0). -/
def stEat : GameState :=
  ⟨confEat, [⟨0, 0⟩], .Right, [⟨⟨1, 0⟩, 0⟩], .Ongoing, 0, 6, [0, 0]⟩

/-- Like `confEat` but with speed-up threshold 0. -/
def confEat0 : GameConf := ⟨0, 1, 6, 1, 3, 1, 0, false⟩

/-- A state on `confEat0` about to eat the food at (1,0). -/
def stEat0 : GameState :=
  ⟨confEat0, [⟨0, 0⟩], .Right, [⟨⟨1, 0⟩, 0⟩], .Ongoing, 0, 6, [0, 0]⟩

/-- A 2×2 board, no food target count, used to exercise the sampler. -/
def confSmall : GameConf := ⟨0, 0, 1, 2, 2, 1, 0, false⟩

/-- Two free cells on `confSmall`; the RNG draw 3 selects the second. -/
def stSampler : GameState :=
  ⟨confSmall, [⟨0, 0⟩], .Right, [⟨⟨1, 1⟩, 5⟩], .Ongoing, 0, 1, [3, 9]⟩

/-- Exactly one free cell, (0,1), on `confSmall`. -/
def stSampler1 : GameState :=
  ⟨confSmall, [⟨0, 0⟩, ⟨1, 0⟩], .Right, [⟨⟨1, 1⟩, 5⟩], .Ongoing, 0, 1, [3, 9]⟩

/-- No free cell on `confSmall`. -/
def stFull : GameState :=
  ⟨confSmall, [⟨0, 0⟩, ⟨1, 0⟩, ⟨0, 1⟩, ⟨1, 1⟩], .Right, [], .Ongoing, 0, 1, [3, 9]⟩

/-- A 5×3 board, snake length 3, one food: a valid everyday config. -/
def confDemo : GameConf := ⟨4, 1, 6, 3, 5, 3, 0, false⟩

/-- All fields of a `GameState` except `status`, used to express that
`make_step` never consults the status field. -/
def nonStatus (s : GameState) :
    GameConf × List Coords × Dir × List Food × Nat × Nat × List Nat :=
  (s.conf, s.snake, s.snake_dir, s.food, s.score, s.speed, s.rng)

/-! Helper lemmas about the embedding. -/

@[simp]
lemma apply_turn_conf (s : GameState) (turn : Option Dir) :
    (apply_turn s turn).conf = s.conf := by
  cases turn <;> rfl

@[simp]
lemma apply_turn_snake (s : GameState) (turn : Option Dir) :
    (apply_turn s turn).snake = s.snake := by
  cases turn <;> rfl

@[simp]
lemma apply_turn_food (s : GameState) (turn : Option Dir) :
    (apply_turn s turn).food = s.food := by
  cases turn <;> rfl

@[simp]
lemma apply_turn_status (s : GameState) (turn : Option Dir) :
    (apply_turn s turn).status = s.status := by
  cases turn <;> rfl

@[simp]
lemma apply_turn_score (s : GameState) (turn : Option Dir) :
    (apply_turn s turn).score = s.score := by
  cases turn <;> rfl

@[simp]
lemma apply_turn_speed (s : GameState) (turn : Option Dir) :
    (apply_turn s turn).speed = s.speed := by
  cases turn <;> rfl

@[simp]
lemma apply_turn_rng (s : GameState) (turn : Option Dir) :
    (apply_turn s turn).rng = s.rng := by
  cases turn <;> rfl

lemma perp_ne_and_ne_opposite (d c : Dir) (h : d.is_perpendicular c = true) :
    d ≠ c ∧ d ≠ c.opposite := by
  revert h
  cases d <;> cases c <;> decide

lemma findIdx?_some_lt {α : Type} (p : α → Bool) :
    ∀ (l : List α) (j i : Nat), List.findIdx? p l j = some i → i < j + l.length := by
  intro l
  induction l with
  | nil => intro j i h; simp [List.findIdx?] at h
  | cons x xs ih =>
    intro j i h
    rw [List.findIdx?_cons] at h
    by_cases hp : p x = true
    · rw [if_pos hp] at h
      simp only [Option.some.injEq] at h
      simp [← h]
    · rw [if_neg hp] at h
      have := ih (j + 1) i h
      simp only [List.length_cons]
      omega

/-- In `make_step`, a step that does not find food at the new head leaves
food, score, speed, rng untouched and keeps the status. -/
lemma step_after_head_eq (s : GameState) (nh : Coords) (hmem : nh ∉ s.snake.dropLast)
    (hfood : ∀ f ∈ s.food, f.pos ≠ nh) :
    step_after_head s nh = { s with snake := nh :: s.snake.dropLast } := by
  have hidx : s.food.findIdx? (fun f => f.pos == nh) = none := by
    rw [List.findIdx?_eq_none_iff]
    intro f hf
    simpa using hfood f hf
  unfold step_after_head
  rw [if_neg hmem, hidx]

/-! ### C1: tail-vacancy exemption -/

/-- C1.  If the game is Ongoing and the candidate new head position equals
the current tail element, with no food and no other body element on that
cell, then after `make_step` the status is still Ongoing and the head
occupies that cell. -/
theorem C1_tail_vacancy (s : GameState) (turn : Option Dir) (t : Coords)
    (hst : s.status = .Ongoing)
    (hhead : candidate_head (apply_turn s turn) = some t)
    (_htail : t = s.snake.getLastD ⟨0, 0⟩)
    (hbody : t ∉ s.snake.dropLast)
    (hfood : ∀ f ∈ s.food, f.pos ≠ t) :
    (make_step s turn).status = .Ongoing ∧
    (make_step s turn).snake.headD ⟨0, 0⟩ = t := by
  simp only [make_step, hhead]
  rw [step_after_head_eq (apply_turn s turn) t (by simpa using hbody) (by simpa using hfood)]
  simp [hst]

/-- Witness for C1: the tail chase on the 2×1 wrapping board. -/
theorem C1_tail_vacancy_witness :
    (make_step stTailChase none).status = .Ongoing ∧
    (make_step stTailChase none).snake.headD ⟨0, 0⟩ = ⟨0, 0⟩ :=
  C1_tail_vacancy stTailChase none ⟨0, 0⟩ (by decide) (by decide) (by decide)
    (by decide) (by decide)

/-! ### C2: self-collision -/

/-- C2 as stated is false: on a self-collision `make_step` does set status
to Dead, but the tail element popped at the start of the step is not
restored, so the snake's length drops by one, contradicting the claim that
the snake's length is unchanged from its pre-step value.  The state
`stLoop` is Ongoing, the candidate head (1,2) lies in the body remaining
after tail removal, yet the resulting length is 4, not 5. -/
theorem C2_counterexample :
    stLoop.status = .Ongoing ∧
    candidate_head (apply_turn stLoop (some .Down)) = some ⟨1, 2⟩ ∧
    (⟨1, 2⟩ : Coords) ∈ stLoop.snake.dropLast ∧
    (make_step stLoop (some .Down)).status = .Dead ∧
    (make_step stLoop (some .Down)).snake.length ≠ stLoop.snake.length := by
  decide

/-- C2 amended.  If the candidate new head position lies in the body
remaining after tail removal, `make_step` sets status to Dead and stops:
food, score, speed, RNG and config keep their pre-step values, the
attempted head move is not performed, and the snake equals the pre-step
snake with its tail element removed (its length drops by one). -/
theorem C2_self_collision (s : GameState) (turn : Option Dir) (nh : Coords)
    (hhead : candidate_head (apply_turn s turn) = some nh)
    (hbody : nh ∈ s.snake.dropLast) :
    (make_step s turn).status = .Dead ∧
    (make_step s turn).snake = s.snake.dropLast ∧
    (make_step s turn).food = s.food ∧
    (make_step s turn).score = s.score ∧
    (make_step s turn).speed = s.speed ∧
    (make_step s turn).rng = s.rng ∧
    (make_step s turn).conf = s.conf := by
  simp only [make_step, hhead]
  unfold step_after_head
  rw [if_pos (show nh ∈ (apply_turn s turn).snake.dropLast by simpa using hbody)]
  simp

/-- Witness for C2's amended theorem at the concrete collision state. -/
theorem C2_self_collision_witness :
    (make_step stLoop (some .Down)).status = .Dead ∧
    (make_step stLoop (some .Down)).snake = stLoop.snake.dropLast ∧
    (make_step stLoop (some .Down)).food = stLoop.food ∧
    (make_step stLoop (some .Down)).score = stLoop.score ∧
    (make_step stLoop (some .Down)).speed = stLoop.speed ∧
    (make_step stLoop (some .Down)).rng = stLoop.rng ∧
    (make_step stLoop (some .Down)).conf = stLoop.conf :=
  C2_self_collision stLoop (some .Down) ⟨1, 2⟩ (by decide) (by decide)

/-! ### C3: terminal-state behaviour of make_step -/

/-- C3 as stated is false: `make_step` does not check `status`, so calling
it on a Dead state still advances the snake.  `stDead` is a Dead state whose
snake changes when `make_step` is called with turn `none`. -/
theorem C3_counterexample :
    stDead.status = .Dead ∧
    (make_step stDead none).snake ≠ stDead.snake := by
  decide

lemma make_step_eq_none_turn (s : GameState) (turn : Option Dir) :
    make_step s turn = make_step (apply_turn s turn) none := by
  cases turn <;> rfl

lemma apply_turn_status_comm (s : GameState) (st : GameStatus) (turn : Option Dir) :
    apply_turn { s with status := st } turn = { apply_turn s turn with status := st } := by
  cases turn <;> rfl

/-- All fields of `step_after_head`'s result other than `status` are
independent of the input status. -/
lemma step_after_head_status_irrel (cf : GameConf) (sn : List Coords) (dir : Dir)
    (fd : List Food) (sc sp : Nat) (rg : List Nat) (st st2 : GameStatus) (nh : Coords) :
    nonStatus (step_after_head (GameState.mk cf sn dir fd st sc sp rg) nh) =
    nonStatus (step_after_head (GameState.mk cf sn dir fd st2 sc sp rg) nh) := by
  simp only [step_after_head]
  by_cases hmem : nh ∈ sn.dropLast
  · simp [hmem, nonStatus]
  · simp only [hmem, if_neg, if_false]
    cases hidx : fd.findIdx? (fun f => f.pos == nh) with
    | none => simp [nonStatus]
    | some i =>
      simp only
      have hfd : find_new_food_place
          (GameState.mk cf (nh :: sn.dropLast ++ [sn.getLastD ⟨0, 0⟩]) dir
            (fd.eraseIdx i) st sc sp rg) =
          find_new_food_place
          (GameState.mk cf (nh :: sn.dropLast ++ [sn.getLastD ⟨0, 0⟩]) dir
            (fd.eraseIdx i) st2 sc sp rg) := rfl
      rw [hfd]
      rcases hT : find_new_food_place
          (GameState.mk cf (nh :: sn.dropLast ++ [sn.getLastD ⟨0, 0⟩]) dir
            (fd.eraseIdx i) st2 sc sp rg) with ⟨_ | nf, r⟩ <;>
        simp [nonStatus]

/-- Every field of `make_step`'s result other than `status` is independent
of the input status: the function never reads `status`. -/
lemma make_step_status_irrel (s : GameState) (turn : Option Dir) (st : GameStatus) :
    nonStatus (make_step { s with status := st } turn) =
    nonStatus (make_step s turn) := by
  rw [make_step_eq_none_turn, make_step_eq_none_turn s turn, apply_turn_status_comm]
  generalize apply_turn s turn = s1
  obtain ⟨cf, sn, dir, fd, st0, sc, sp, rg⟩ := s1
  simp only [make_step, apply_turn]
  have hch : candidate_head (GameState.mk cf sn dir fd st sc sp rg) =
      candidate_head (GameState.mk cf sn dir fd st0 sc sp rg) := rfl
  rw [hch]
  cases hc : candidate_head (GameState.mk cf sn dir fd st0 sc sp rg) with
  | none => simp [nonStatus]
  | some nh => exact step_after_head_status_irrel cf sn dir fd sc sp rg st st0 nh

/-- The status written by `make_step` is the old status, Dead, or Win. -/
lemma make_step_status_cases (s : GameState) (turn : Option Dir) :
    (make_step s turn).status = s.status ∨ (make_step s turn).status = .Dead ∨
    (make_step s turn).status = .Win := by
  rw [make_step_eq_none_turn]
  rw [show s.status = (apply_turn s turn).status from (apply_turn_status s turn).symm]
  generalize apply_turn s turn = s1
  obtain ⟨cf, sn, dir, fd, st0, sc, sp, rg⟩ := s1
  simp only [make_step, apply_turn]
  cases hc : candidate_head (GameState.mk cf sn dir fd st0 sc sp rg) with
  | none => simp
  | some nh =>
    simp only [step_after_head]
    by_cases hmem : nh ∈ sn.dropLast
    · simp [hmem]
    · simp only [hmem, if_neg, if_false]
      cases hidx : fd.findIdx? (fun f => f.pos == nh) with
      | none => simp
      | some i =>
        simp only
        rcases hT : find_new_food_place
            (GameState.mk cf (nh :: sn.dropLast ++ [sn.getLastD ⟨0, 0⟩]) dir
              (fd.eraseIdx i) st0 sc sp rg) with ⟨_ | nf, r⟩ <;>
          simp

/-- Status values other than Ongoing are absorbing. -/
lemma make_step_status_terminal (s : GameState) (turn : Option Dir)
    (h : s.status ≠ .Ongoing) : (make_step s turn).status ≠ .Ongoing := by
  rcases make_step_status_cases s turn with h1 | h1 | h1 <;> rw [h1] <;> simp [h]

/-- C3 amended.  Once status leaves Ongoing it never returns to Ongoing, but
`make_step` does not consult `status` at all: every other field of its result
is the same as it would be for any other input status, so a call on a Dead or
Win state mutates the state exactly as on an Ongoing one.  The read-only
guarantee for terminal states is a caller contract (the driving loop stops
stepping), not something `make_step` enforces. -/
theorem C3_terminal_behaviour (s : GameState) (turn : Option Dir) (st : GameStatus) :
    (s.status ≠ .Ongoing → (make_step s turn).status ≠ .Ongoing) ∧
    nonStatus (make_step { s with status := st } turn) =
      nonStatus (make_step s turn) :=
  ⟨make_step_status_terminal s turn, make_step_status_irrel s turn st⟩

/-- Witness for C3's amended theorem on the concrete Dead state. -/
theorem C3_terminal_behaviour_witness :
    (make_step stDead none).status ≠ .Ongoing ∧
    nonStatus (make_step { stDead with status := .Win } none) =
      nonStatus (make_step stDead none) :=
  ⟨(C3_terminal_behaviour stDead none .Win).1 (by decide),
   (C3_terminal_behaviour stDead none .Win).2⟩

/-! ### C4: Coords::compare -/

lemma mod_succ_eq (a m : Nat) (ha : a < m) :
    (a + 1) % m = if a + 1 = m then 0 else a + 1 := by
  by_cases h : a + 1 = m
  · simp [h]
  · rw [if_neg h, Nat.mod_eq_of_lt (by omega)]

lemma mod_pred_eq (a m : Nat) (hm : 0 < m) (ha : a < m) :
    (a + m - 1) % m = if a = 0 then m - 1 else a - 1 := by
  by_cases h : a = 0
  · subst h
    rw [if_pos rfl, Nat.zero_add, Nat.mod_eq_of_lt (by omega)]
  · rw [if_neg h]
    have he : a + m - 1 = m + (a - 1) := by omega
    rw [he, Nat.add_mod_left, Nat.mod_eq_of_lt (by omega)]

/-- C4 as stated is false, in two ways.  (a) Orientation: for the adjacent
pair self = (1,0), other = (0,0) on a 3×3 board, the direction that moves
`self` onto `other` is Left, yet `compare` answers Right — the direction
that moves `other` onto `self`.  (b) On a width-1 board the first wrap guard
degenerates to always-true, so for the vertically adjacent pair
self = (0,2), other = (0,1) on a 1×3 board `compare` answers Right, which
moves neither `self` onto `other` nor `other` onto `self` (the only
direction from `other` to `self` there is Down); the corrected reading thus
needs width at least 2, while height needs no restriction. -/
theorem C4_counterexample :
    (Coords.compare ⟨1, 0⟩ ⟨0, 0⟩ 3 3 = some .Right ∧
      Coords.move_wrapping ⟨1, 0⟩ .Right 3 3 ≠ ⟨0, 0⟩ ∧
      Coords.move_wrapping ⟨1, 0⟩ .Left 3 3 = ⟨0, 0⟩ ∧
      Coords.move_wrapping ⟨0, 0⟩ .Right 3 3 = ⟨1, 0⟩) ∧
    (Coords.compare ⟨0, 2⟩ ⟨0, 1⟩ 1 3 = some .Right ∧
      Coords.move_wrapping ⟨0, 1⟩ .Down 1 3 = ⟨0, 2⟩ ∧
      Coords.move_wrapping ⟨0, 2⟩ .Right 1 3 ≠ ⟨0, 1⟩ ∧
      Coords.move_wrapping ⟨0, 1⟩ .Right 1 3 ≠ ⟨0, 2⟩ ∧
      Coords.move_wrapping ⟨0, 1⟩ .Left 1 3 ≠ ⟨0, 2⟩ ∧
      Coords.move_wrapping ⟨0, 1⟩ .Up 1 3 ≠ ⟨0, 2⟩) := by
  decide

/-- C4 amended.  For grid-adjacent in-bounds coordinates on a board of width
at least 2, `compare self other` computes exactly the direction the claim's
tie-break order dictates once the orientation is read from `other` toward
`self` — it agrees with `claimed_compare` (horizontal wrap-adjacency before
generic horizontal before vertical wrap-adjacency before generic vertical,
so that on a width-2 or height-2 board, where both directions of an axis
join the pair, the wrap guard decides) — and the returned direction indeed
moves `other` one wrapping step onto `self`. -/
theorem C4_compare_direction (self other : Coords) (w h : Nat)
    (hw : 2 ≤ w)
    (hsx : self.x < w) (hsy : self.y < h) (hox : other.x < w) (hoy : other.y < h)
    (hadj : ∃ d : Dir, other.move_wrapping d w h = self) :
    Coords.compare self other w h = claimed_compare self other w h ∧
    (∃ d : Dir, Coords.compare self other w h = some d ∧
      other.move_wrapping d w h = self) := by
  obtain ⟨sx, sy⟩ := self
  obtain ⟨ox, oy⟩ := other
  have hsx : sx < w := hsx
  have hsy : sy < h := hsy
  have hox : ox < w := hox
  have hoy : oy < h := hoy
  have hADJ : (oy = sy ∧ ((ox + 1 = w ∧ sx = 0) ∨ (ox + 1 < w ∧ sx = ox + 1) ∨
        (ox = 0 ∧ sx = w - 1) ∨ (0 < ox ∧ sx + 1 = ox))) ∨
      (ox = sx ∧ ((oy + 1 = h ∧ sy = 0) ∨ (oy + 1 < h ∧ sy = oy + 1) ∨
        (oy = 0 ∧ sy = h - 1) ∨ (0 < oy ∧ sy + 1 = oy))) := by
    obtain ⟨d0, hd0⟩ := hadj
    cases d0 with
    | Up =>
      simp only [Coords.move_wrapping, Coords.mk.injEq] at hd0
      obtain ⟨hd1, hd2⟩ := hd0
      rw [mod_pred_eq oy h (by omega) hoy] at hd2
      split_ifs at hd2 with hz <;> omega
    | Down =>
      simp only [Coords.move_wrapping, Coords.mk.injEq] at hd0
      obtain ⟨hd1, hd2⟩ := hd0
      rw [mod_succ_eq oy h hoy] at hd2
      split_ifs at hd2 with hz <;> omega
    | Left =>
      simp only [Coords.move_wrapping, Coords.mk.injEq] at hd0
      obtain ⟨hd1, hd2⟩ := hd0
      rw [mod_pred_eq ox w (by omega) hox] at hd1
      split_ifs at hd1 with hz <;> omega
    | Right =>
      simp only [Coords.move_wrapping, Coords.mk.injEq] at hd0
      obtain ⟨hd1, hd2⟩ := hd0
      rw [mod_succ_eq ox w hox] at hd1
      split_ifs at hd1 with hz <;> omega
  constructor
  · simp only [Coords.compare, claimed_compare]
    by_cases g1 : sx = 0 ∧ ox = w - 1
    · rw [if_pos g1, if_pos (show ox = w - 1 ∧ sx = 0 from ⟨g1.2, g1.1⟩)]
    · rw [if_neg g1, if_neg (show ¬(ox = w - 1 ∧ sx = 0) by omega)]
      by_cases g2 : sx = w - 1 ∧ ox = 0
      · rw [if_pos g2, if_pos (show ox = 0 ∧ sx = w - 1 from ⟨g2.2, g2.1⟩)]
      · rw [if_neg g2, if_neg (show ¬(ox = 0 ∧ sx = w - 1) by omega)]
        by_cases g3 : ox < sx
        · rw [if_pos g3, if_pos (show ox + 1 = sx by omega)]
        · rw [if_neg g3, if_neg (show ¬(ox + 1 = sx) by omega)]
          by_cases g4 : sx < ox
          · rw [if_pos g4, if_pos (show sx + 1 = ox by omega)]
          · rw [if_neg g4, if_neg (show ¬(sx + 1 = ox) by omega)]
            by_cases g5 : sy = 0 ∧ oy = h - 1
            · rw [if_pos g5, if_pos (show oy = h - 1 ∧ sy = 0 from ⟨g5.2, g5.1⟩)]
            · rw [if_neg g5, if_neg (show ¬(oy = h - 1 ∧ sy = 0) by omega)]
              by_cases g6 : sy = h - 1 ∧ oy = 0
              · rw [if_pos g6, if_pos (show oy = 0 ∧ sy = h - 1 from ⟨g6.2, g6.1⟩)]
              · rw [if_neg g6, if_neg (show ¬(oy = 0 ∧ sy = h - 1) by omega)]
                by_cases g7 : oy < sy
                · rw [if_pos g7, if_pos (show oy + 1 = sy by omega)]
                · rw [if_neg g7, if_neg (show ¬(oy + 1 = sy) by omega)]
                  by_cases g8 : sy < oy
                  · rw [if_pos g8, if_pos (show sy + 1 = oy by omega)]
                  · rw [if_neg g8, if_neg (show ¬(sy + 1 = oy) by omega)]
  · simp only [Coords.compare]
    split_ifs with g1 g2 g3 g4 g5 g6 g7 g8
    all_goals first
      | exact ⟨.Right, rfl, by
          simp only [Coords.move_wrapping, Coords.mk.injEq]
          rw [mod_succ_eq ox w hox]
          split_ifs with hs <;> exact ⟨by omega, by omega⟩⟩
      | exact ⟨.Left, rfl, by
          simp only [Coords.move_wrapping, Coords.mk.injEq]
          rw [mod_pred_eq ox w (by omega) hox]
          split_ifs with hs <;> exact ⟨by omega, by omega⟩⟩
      | exact ⟨.Down, rfl, by
          simp only [Coords.move_wrapping, Coords.mk.injEq]
          rw [mod_succ_eq oy h hoy]
          split_ifs with hs <;> exact ⟨by omega, by omega⟩⟩
      | exact ⟨.Up, rfl, by
          simp only [Coords.move_wrapping, Coords.mk.injEq]
          rw [mod_pred_eq oy h (by omega) hoy]
          split_ifs with hs <;> exact ⟨by omega, by omega⟩⟩
      | (exfalso; omega)

/-- Witness for C4's amended theorem: the wrap-adjacent pair (0,0), (2,0)
on a 3×3 board. -/
theorem C4_compare_direction_witness :
    Coords.compare ⟨0, 0⟩ ⟨2, 0⟩ 3 3 = claimed_compare ⟨0, 0⟩ ⟨2, 0⟩ 3 3 ∧
    ∃ d : Dir, Coords.compare ⟨0, 0⟩ ⟨2, 0⟩ 3 3 = some d ∧
      Coords.move_wrapping ⟨2, 0⟩ d 3 3 = ⟨0, 0⟩ :=
  C4_compare_direction ⟨0, 0⟩ ⟨2, 0⟩ 3 3 (by decide) (by decide) (by decide)
    (by decide) (by decide) ⟨.Right, by decide⟩

/-! ### C6: move_bumping -/

/-- C6.  For an in-bounds coordinate, `move_bumping` returns `none` exactly
when the coordinate lies on the boundary edge the direction points off of,
and otherwise returns the coordinate advanced one cell in that direction
(which agrees with `move_wrapping` there and stays in bounds). -/
theorem C6_move_bumping (c : Coords) (d : Dir) (w h : Nat)
    (hx : c.x < w) (hy : c.y < h) :
    (c.move_bumping d w h = none ↔
      (d = .Up ∧ c.y = 0) ∨ (d = .Down ∧ c.y = h - 1) ∨
      (d = .Left ∧ c.x = 0) ∨ (d = .Right ∧ c.x = w - 1)) ∧
    (∀ r, c.move_bumping d w h = some r →
      r = c.move_wrapping d w h ∧ r.x < w ∧ r.y < h) := by
  cases d
  case Up =>
    constructor
    · simp only [Coords.move_bumping]
      split_ifs with hc <;> simp <;> omega
    · intro r hr
      simp only [Coords.move_bumping] at hr
      split_ifs at hr with hc
      simp only [Option.some.injEq] at hr
      subst hr
      refine ⟨?_, by simpa using hx, by simp; omega⟩
      simp only [Coords.move_wrapping, Coords.mk.injEq]
      rw [mod_pred_eq c.y h (by omega) hy]
      refine ⟨trivial, ?_⟩
      split_ifs with h0 <;> omega
  case Down =>
    constructor
    · simp only [Coords.move_bumping]
      split_ifs with hc <;> simp <;> omega
    · intro r hr
      simp only [Coords.move_bumping] at hr
      split_ifs at hr with hc
      simp only [Option.some.injEq] at hr
      subst hr
      refine ⟨?_, by simpa using hx, by simp; omega⟩
      simp only [Coords.move_wrapping, Coords.mk.injEq]
      rw [mod_succ_eq c.y h hy]
      refine ⟨trivial, ?_⟩
      split_ifs with h0 <;> omega
  case Left =>
    constructor
    · simp only [Coords.move_bumping]
      split_ifs with hc <;> simp <;> omega
    · intro r hr
      simp only [Coords.move_bumping] at hr
      split_ifs at hr with hc
      simp only [Option.some.injEq] at hr
      subst hr
      refine ⟨?_, by simp; omega, by simpa using hy⟩
      simp only [Coords.move_wrapping, Coords.mk.injEq]
      rw [mod_pred_eq c.x w (by omega) hx]
      refine ⟨?_, trivial⟩
      split_ifs with h0 <;> omega
  case Right =>
    constructor
    · simp only [Coords.move_bumping]
      split_ifs with hc <;> simp <;> omega
    · intro r hr
      simp only [Coords.move_bumping] at hr
      split_ifs at hr with hc
      simp only [Option.some.injEq] at hr
      subst hr
      refine ⟨?_, by simp; omega, by simpa using hy⟩
      simp only [Coords.move_wrapping, Coords.mk.injEq]
      rw [mod_succ_eq c.x w hx]
      refine ⟨?_, trivial⟩
      split_ifs with h0 <;> omega

/-- Witness for C6 at a boundary and an interior case. -/
theorem C6_move_bumping_witness :
    ((Coords.move_bumping ⟨0, 0⟩ .Up 10 10 = none) ↔
      ((Dir.Up = .Up ∧ (0 : Nat) = 0) ∨ (Dir.Up = .Down ∧ (0 : Nat) = 10 - 1) ∨
       (Dir.Up = .Left ∧ (0 : Nat) = 0) ∨ (Dir.Up = .Right ∧ (0 : Nat) = 10 - 1))) ∧
    ((⟨4, 3⟩ : Coords) = Coords.move_wrapping ⟨3, 3⟩ .Right 10 10 ∧
      (4 : Nat) < 10 ∧ (3 : Nat) < 10) :=
  ⟨(C6_move_bumping ⟨0, 0⟩ .Up 10 10 (by decide) (by decide)).1,
   by
    have h := (C6_move_bumping ⟨3, 3⟩ .Right 10 10 (by decide) (by decide)).2
      ⟨4, 3⟩ (by decide)
    exact h⟩

/-! ### C8: turn buffer validity -/

/-- C8.  `turn_to_do` returns either nothing or a direction perpendicular to
the current direction — hence never the current direction itself nor its
opposite — and returns nothing exactly when no buffered entry is
perpendicular to the current direction. -/
theorem C8_turn_buffer (buf : List Dir) (cur : Dir) :
    (∀ d, turn_to_do buf cur = some d →
      d.is_perpendicular cur = true ∧ d ≠ cur ∧ d ≠ cur.opposite) ∧
    (turn_to_do buf cur = none ↔ ∀ d ∈ buf, d.is_perpendicular cur = false) := by
  induction buf with
  | nil =>
    constructor
    · intro d hd
      simp [turn_to_do] at hd
    · simp [turn_to_do]
  | cons a rest ih =>
    obtain ⟨ih1, ih2⟩ := ih
    by_cases hp : a.is_perpendicular cur = true
    · constructor
      · intro d hd
        simp only [turn_to_do, hp, if_true] at hd
        obtain rfl : a = d := by simpa using hd
        exact ⟨hp, perp_ne_and_ne_opposite a cur hp⟩
      · simp [turn_to_do, hp]
    · have hp2 : a.is_perpendicular cur = false := by
        cases hb : a.is_perpendicular cur
        · rfl
        · exact absurd hb hp
      constructor
      · intro d hd
        simp only [turn_to_do, hp2, Bool.false_eq_true, if_false] at hd
        exact ih1 d hd
      · simp only [turn_to_do, hp2, Bool.false_eq_true, if_false, List.mem_cons]
        rw [ih2]
        constructor
        · intro hall d hd
          rcases hd with rfl | hd
          · exact hp2
          · exact hall d hd
        · intro hall d hd
          exact hall d (Or.inr hd)

/-- Witness for C8: a buffer whose stale head is skipped, and a buffer with
no perpendicular entry. -/
theorem C8_turn_buffer_witness :
    (Dir.Up.is_perpendicular Dir.Right = true ∧ Dir.Up ≠ Dir.Right ∧
      Dir.Up ≠ Dir.Right.opposite) ∧
    turn_to_do [Dir.Right, Dir.Left] Dir.Right = none :=
  ⟨(C8_turn_buffer [Dir.Left, Dir.Up] Dir.Right).1 Dir.Up (by decide),
   (C8_turn_buffer [Dir.Right, Dir.Left] Dir.Right).2.mpr (by decide)⟩

/-! ### C9: speed formula -/

/-- C9.  If the speed-up threshold is zero the speed is never recomputed;
if it is positive and a step increments the score to `n` times the
threshold, the speed after that step is the initial speed plus `n`,
saturating at the largest `u32` value. -/
theorem C9_speed_formula (s : GameState) (turn : Option Dir) (n : Nat) :
    (s.conf.food_to_speed_up = 0 → (make_step s turn).speed = s.speed) ∧
    (0 < s.conf.food_to_speed_up →
      (make_step s turn).score = s.score + 1 →
      (make_step s turn).score = n * s.conf.food_to_speed_up →
      (make_step s turn).speed = min (s.conf.initial_speed + n) u32Max) := by
  rw [make_step_eq_none_turn]
  rw [show s.speed = (apply_turn s turn).speed from (apply_turn_speed s turn).symm]
  rw [show s.score = (apply_turn s turn).score from (apply_turn_score s turn).symm]
  rw [show s.conf = (apply_turn s turn).conf from (apply_turn_conf s turn).symm]
  generalize apply_turn s turn = s1
  obtain ⟨cf, sn, dir, fd, st0, sc, sp, rg⟩ := s1
  simp only [make_step, apply_turn]
  cases hc : candidate_head (GameState.mk cf sn dir fd st0 sc sp rg) with
  | none => exact ⟨fun _ => rfl, fun _ h1 _ => by simp at h1⟩
  | some nh =>
    simp only [step_after_head]
    by_cases hmem : nh ∈ sn.dropLast
    · rw [if_pos hmem]
      exact ⟨fun _ => rfl, fun _ h1 _ => by simp at h1⟩
    · rw [if_neg hmem]
      cases hidx : fd.findIdx? (fun f => f.pos == nh) with
      | none =>
        exact ⟨fun _ => rfl, fun _ h1 _ => by simp at h1⟩
      | some i =>
        simp only
        rcases hT : find_new_food_place
            (GameState.mk cf (nh :: sn.dropLast ++ [sn.getLastD ⟨0, 0⟩]) dir
              (fd.eraseIdx i) st0 sc sp rg) with ⟨_ | nf, r⟩ <;>
        · simp only
          constructor
          · intro hT0
            simp [hT0]
          · intro hTpos h1 h2
            have h2b : sc + 1 = n * cf.food_to_speed_up := h2
            rw [if_pos (show cf.food_to_speed_up ≠ 0 by omega)]
            simp only [h2b, Nat.mul_div_cancel n hTpos]

/-- Witness for C9: a step with threshold 0 keeps speed; an eating step on a
threshold-1 config bumps speed from 6 to `min 7 u32Max`. -/
theorem C9_speed_formula_witness :
    (make_step stEat0 none).speed = stEat0.speed ∧
    (make_step stEat none).speed = min (stEat.conf.initial_speed + 1) u32Max :=
  ⟨(C9_speed_formula stEat0 none 0).1 rfl,
   (C9_speed_formula stEat none 1).2 (by decide) (by decide) (by decide)⟩

/-! ### The row-major scan of find_new_food_place -/

lemma ofIndex_zero (w : Nat) : ofIndex w 0 = ⟨0, 0⟩ := by
  simp [ofIndex]

lemma toIndex_ofIndex (w t : Nat) (hw : 0 < w) :
    (ofIndex w t).y * w + (ofIndex w t).x = t := by
  simp only [ofIndex]
  rw [Nat.mul_comm]
  exact Nat.div_add_mod t w

lemma ofIndex_inj (w : Nat) (hw : 0 < w) {a b : Nat}
    (hab : ofIndex w a = ofIndex w b) : a = b := by
  have ha := toIndex_ofIndex w a hw
  have hb := toIndex_ofIndex w b hw
  rw [hab] at ha
  omega

lemma nextCell_ofIndex (w t : Nat) (hw : 0 < w) :
    nextCell w (ofIndex w t) = ofIndex w (t + 1) := by
  have hmod : t % w < w := Nat.mod_lt t hw
  have hdm := Nat.div_add_mod t w
  simp only [nextCell, ofIndex]
  by_cases hend : w ≤ t % w + 1
  · rw [if_pos hend]
    have hexp : w * (t / w + 1) = w * (t / w) + w := by ring
    have h1 : t + 1 = w * (t / w + 1) := by omega
    rw [h1, Nat.mul_mod_right, Nat.mul_div_cancel_left _ hw]
  · rw [if_neg hend]
    have hlt1 : t % w + 1 < w := by omega
    have h1 : t + 1 = t % w + 1 + w * (t / w) := by omega
    rw [h1, Nat.add_mul_mod_self_left, Nat.add_mul_div_left _ _ hw,
      Nat.mod_eq_of_lt hlt1, Nat.div_eq_of_lt hlt1]
    simp

/-- The scan loop, started at the cell of row-major index `t` with `i` free
cells already passed, returns entry `k - i` of the list of free cells among
the next `fuel` cells in row-major order. -/
lemma scanLoop_char (taken : Coords → Bool) (w : Nat) (hw : 0 < w) :
    ∀ (fuel t i k : Nat), i ≤ k →
      scanLoop taken w fuel (ofIndex w t) i k =
        (((List.range' t fuel).map (ofIndex w)).filter
          (fun c => !taken c))[k - i]? := by
  intro fuel
  induction fuel with
  | zero => intro t i k _; simp [scanLoop]
  | succ n ih =>
    intro t i k hik
    rw [scanLoop]
    simp only [List.range'_succ, List.map_cons, List.filter_cons]
    cases hT : taken (ofIndex w t) with
    | true =>
      simp only [hT, Bool.not_true, if_true, if_false, Bool.false_eq_true]
      rw [if_neg (show ¬ k < i by omega)]
      rw [nextCell_ofIndex w t hw, ih (t + 1) i k hik]
    | false =>
      simp only [hT, Bool.not_false, if_true, if_false, Bool.false_eq_true]
      by_cases hki : k < i + 1
      · have hk : k = i := by omega
        rw [if_pos hki]
        subst hk
        simp
      · rw [if_neg hki]
        rw [nextCell_ofIndex w t hw, ih (t + 1) (i + 1) k (by omega)]
        have hs : k - i = (k - (i + 1)) + 1 := by omega
        simp only [hs, List.getElem?_cons_succ]

/-- The scan loop from the origin returns entry `k` of the free cells of the
first `fuel` cells. -/
lemma scanLoop_zero_char (taken : Coords → Bool) (w : Nat) (hw : 0 < w)
    (fuel k : Nat) :
    scanLoop taken w fuel ⟨0, 0⟩ 0 k =
      (((List.range' 0 fuel).map (ofIndex w)).filter (fun c => !taken c))[k]? := by
  rw [← ofIndex_zero w, scanLoop_char taken w hw fuel 0 0 k (Nat.zero_le k)]
  simp

/-- Enlarging the fuel of a successful scan does not change its result. -/
lemma scanLoop_mono (taken : Coords → Bool) (w : Nat) (hw : 0 < w)
    {f1 f2 k : Nat} {c : Coords} (hf : f1 ≤ f2)
    (h1 : scanLoop taken w f1 ⟨0, 0⟩ 0 k = some c) :
    scanLoop taken w f2 ⟨0, 0⟩ 0 k = some c := by
  rw [scanLoop_zero_char taken w hw] at h1 ⊢
  have hsplit : List.range' 0 f2 = List.range' 0 f1 ++ List.range' f1 (f2 - f1) := by
    have happ := List.range'_append 0 f1 (f2 - f1) 1
    simp only [Nat.one_mul, Nat.zero_add] at happ
    have hz : f2 - f1 + f1 = f2 := by omega
    calc List.range' 0 f2 = List.range' 0 (f2 - f1 + f1) := by rw [hz]
      _ = List.range' 0 f1 ++ List.range' f1 (f2 - f1) := happ.symm
  rw [hsplit, List.map_append, List.filter_append, List.getElem?_append]
  obtain ⟨hlt, -⟩ := List.getElem?_eq_some.mp h1
  rw [if_pos hlt]
  exact h1

lemma length_filter_not_add {α : Type} (p : α → Bool) (l : List α) :
    (l.filter (fun a => !p a)).length + (l.filter p).length = l.length := by
  induction l with
  | nil => simp
  | cons a t ih => cases hp : p a <;> simp [List.filter_cons, hp] <;> omega

/-- The cells scanned from the origin are pairwise distinct. -/
lemma scan_list_nodup (w n : Nat) (hw : 0 < w) :
    ((List.range' 0 n).map (ofIndex w)).Nodup :=
  (List.nodup_range' 0 n).map (fun _ _ h => ofIndex_inj w hw h)

/-- A nodup list of cells all taken from `T` is no longer than `T`. -/
lemma nodup_subset_length {α : Type} [DecidableEq α] {l t : List α}
    (hl : l.Nodup) (hsub : l ⊆ t) : l.length ≤ t.length :=
  (List.subperm_of_subset hl hsub).length_le

/-- With fuel `k + 1 + T.length`, the scan loop over the membership test in a
nodup list `T` always finds a cell. -/
lemma scanLoop_total (T : List Coords) (hT : T.Nodup) (w : Nat) (hw : 0 < w)
    (k : Nat) :
    ∃ c, scanLoop (fun c => decide (c ∈ T)) w (k + 1 + T.length) ⟨0, 0⟩ 0 k =
      some c := by
  set f := k + 1 + T.length with hf
  set B := (List.range' 0 f).map (ofIndex w) with hB
  have hBlen : B.length = f := by simp [hB]
  have hBnodup : B.Nodup := scan_list_nodup w f hw
  have htakenlen : (B.filter (fun c => decide (c ∈ T))).length ≤ T.length := by
    refine nodup_subset_length (hBnodup.filter _) ?_
    intro c hc
    have := (List.mem_filter.mp hc).2
    simpa using this
  have hfree : k < (B.filter (fun c => !decide (c ∈ T))).length := by
    have := length_filter_not_add (fun c => decide (c ∈ T)) B
    omega
  refine ⟨(B.filter (fun c => !decide (c ∈ T)))[k], ?_⟩
  rw [scanLoop_zero_char _ w hw, ← hB, List.getElem?_eq_getElem hfree]


/-! ### Board membership and counting -/

lemma mem_scan_list {w n : Nat} {c : Coords} :
    c ∈ (List.range' 0 n).map (ofIndex w) ↔ ∃ t, t < n ∧ ofIndex w t = c := by
  simp [List.mem_map, List.mem_range'_1]

lemma scan_cell_in_board (w h : Nat) (hw : 0 < w) {t : Nat} (ht : t < w * h) :
    (ofIndex w t).x < w ∧ (ofIndex w t).y < h := by
  refine ⟨Nat.mod_lt t hw, ?_⟩
  simp only [ofIndex]
  rw [Nat.div_lt_iff_lt_mul hw]
  have hc : h * w = w * h := Nat.mul_comm h w
  omega

lemma board_mem_scan (w h : Nat) (hw : 0 < w) {c : Coords}
    (hx : c.x < w) (hy : c.y < h) :
    c ∈ (List.range' 0 (w * h)).map (ofIndex w) := by
  obtain ⟨cx, cy⟩ := c
  have hx : cx < w := hx
  have hy : cy < h := hy
  rw [mem_scan_list]
  refine ⟨cx + w * cy, ?_, ?_⟩
  · have h1 : w * (cy + 1) = w * cy + w := by ring
    have h2 : w * (cy + 1) ≤ w * h := Nat.mul_le_mul_left w (by omega)
    omega
  · simp only [ofIndex]
    rw [Nat.add_mul_mod_self_left, Nat.add_mul_div_left _ _ hw,
      Nat.mod_eq_of_lt hx, Nat.div_eq_of_lt hx]
    simp

lemma board_filter_length (w h : Nat) (hw : 0 < w) (T : List Coords) (hT : T.Nodup)
    (hTin : ∀ c ∈ T, c.x < w ∧ c.y < h) :
    (((List.range' 0 (w * h)).map (ofIndex w)).filter
      (fun c => !decide (c ∈ T))).length = w * h - T.length := by
  set B := (List.range' 0 (w * h)).map (ofIndex w) with hB
  have hBlen : B.length = w * h := by simp [hB]
  have hBnodup : B.Nodup := scan_list_nodup w (w * h) hw
  have hle1 : (B.filter (fun c => decide (c ∈ T))).length ≤ T.length := by
    refine nodup_subset_length (hBnodup.filter _) ?_
    intro c hc
    simpa using (List.mem_filter.mp hc).2
  have hle2 : T.length ≤ (B.filter (fun c => decide (c ∈ T))).length := by
    refine nodup_subset_length hT ?_
    intro c hc
    rw [List.mem_filter]
    exact ⟨board_mem_scan w h hw (hTin c hc).1 (hTin c hc).2, by simpa using hc⟩
  have hsum := length_filter_not_add (fun c => decide (c ∈ T)) B
  omega

/-! ### Characterization of find_new_food_place -/

lemma taken_spots_nodup (s : GameState) : (taken_spots s).Nodup :=
  List.nodup_dedup _

lemma free_spots_pos_dims (s : GameState) (h0 : free_spots s ≠ 0) :
    0 < s.conf.width ∧ 0 < s.conf.height := by
  have h1 : s.conf.height * s.conf.width ≠ 0 := by
    unfold free_spots at h0
    omega
  have := Nat.mul_ne_zero_iff.mp h1
  omega

/-- When at least one cell is free, `find_new_food_place` places a food, and
the placed cell is entry `k` of the free cells of the whole board in
row-major order, where `k` is the RNG draw reduced modulo the free count. -/
lemma find_some_board (s : GameState)
    (hin : ∀ c ∈ taken_spots s, c.x < s.conf.width ∧ c.y < s.conf.height)
    (h0 : free_spots s ≠ 0) :
    ∃ c : Coords,
      (find_new_food_place s).1 = some ⟨c, s.rng.tail.headD 0⟩ ∧
      (((List.range' 0 (s.conf.width * s.conf.height)).map (ofIndex s.conf.width)).filter
        (fun c2 => !decide (c2 ∈ taken_spots s)))[s.rng.headD 0 % free_spots s]? =
        some c := by
  obtain ⟨hW, hH⟩ := free_spots_pos_dims s h0
  have hTnodup := taken_spots_nodup s
  have hkfree : s.rng.headD 0 % free_spots s < free_spots s :=
    Nat.mod_lt _ (Nat.pos_of_ne_zero h0)
  obtain ⟨c, hscan⟩ := scanLoop_total (taken_spots s) hTnodup s.conf.width hW
    (s.rng.headD 0 % free_spots s)
  have hfree_eq : free_spots s =
      s.conf.width * s.conf.height - (taken_spots s).length := by
    unfold free_spots
    rw [Nat.mul_comm]
  have hboard_len := board_filter_length s.conf.width s.conf.height hW
    (taken_spots s) hTnodup hin
  have hfind : (find_new_food_place s).1 = some ⟨c, s.rng.tail.headD 0⟩ := by
    have h0x : ¬ (s.conf.height * s.conf.width - (taken_spots s).length = 0) := h0
    simp only [find_new_food_place, if_neg h0x]
    rw [show (s.rng.headD 0 % (s.conf.height * s.conf.width - (taken_spots s).length))
        = s.rng.headD 0 % free_spots s from rfl]
    rw [hscan]
  refine ⟨c, hfind, ?_⟩
  rcases Nat.le_total (s.rng.headD 0 % free_spots s + 1 + (taken_spots s).length)
      (s.conf.width * s.conf.height) with hle | hle
  · have h2 := scanLoop_mono _ s.conf.width hW hle hscan
    rw [scanLoop_zero_char _ s.conf.width hW] at h2
    exact h2
  · have hlen : s.rng.headD 0 % free_spots s <
        (((List.range' 0 (s.conf.width * s.conf.height)).map (ofIndex s.conf.width)).filter
          (fun c2 => !decide (c2 ∈ taken_spots s))).length := by
      rw [hboard_len]
      omega
    have hd := List.getElem?_eq_getElem hlen
    have h3 := hd
    rw [← scanLoop_zero_char _ s.conf.width hW] at h3
    have h4 := scanLoop_mono _ s.conf.width hW hle h3
    rw [hscan] at h4
    simp only [Option.some.injEq] at h4
    rw [hd]
    exact congrArg some h4.symm

/-- Returning nothing is equivalent to a full board. -/
lemma find_none_iff (s : GameState)
    (hin : ∀ c ∈ taken_spots s, c.x < s.conf.width ∧ c.y < s.conf.height) :
    (find_new_food_place s).1 = none ↔ free_spots s = 0 := by
  constructor
  · intro hn
    by_contra h0
    obtain ⟨c, hf, -⟩ := find_some_board s hin h0
    rw [hf] at hn
    cases hn
  · intro h0
    have h0x : s.conf.height * s.conf.width - (taken_spots s).length = 0 := h0
    simp [find_new_food_place, h0x]

/-- Any food returned is on a free, in-board cell. -/
lemma find_some_free (s : GameState)
    (hin : ∀ c ∈ taken_spots s, c.x < s.conf.width ∧ c.y < s.conf.height)
    {f : Food} (hf : (find_new_food_place s).1 = some f) :
    f.pos ∉ taken_spots s ∧ f.pos.x < s.conf.width ∧ f.pos.y < s.conf.height := by
  by_cases h0 : free_spots s = 0
  · rw [(find_none_iff s hin).mpr h0] at hf
    cases hf
  · obtain ⟨hW, hH⟩ := free_spots_pos_dims s h0
    obtain ⟨c, hfc, hboard⟩ := find_some_board s hin h0
    rw [hfc] at hf
    obtain rfl : (⟨c, s.rng.tail.headD 0⟩ : Food) = f := by simpa using hf
    obtain ⟨hlt, heq⟩ := List.getElem?_eq_some.mp hboard
    have hmem : c ∈ (((List.range' 0 (s.conf.width * s.conf.height)).map
        (ofIndex s.conf.width)).filter (fun c2 => !decide (c2 ∈ taken_spots s))) := by
      rw [← heq]
      exact List.getElem_mem hlt
    rw [List.mem_filter] at hmem
    obtain ⟨hmemB, hfree⟩ := hmem
    refine ⟨by simpa using hfree, ?_⟩
    obtain ⟨t, ht, rfl⟩ := mem_scan_list.mp hmemB
    exact scan_cell_in_board s.conf.width s.conf.height hW ht

/-- With exactly one free cell, the sampler always returns that cell. -/
lemma find_unique_free (s : GameState)
    (hin : ∀ c ∈ taken_spots s, c.x < s.conf.width ∧ c.y < s.conf.height)
    (h1 : free_spots s = 1) {c : Coords}
    (hcx : c.x < s.conf.width) (hcy : c.y < s.conf.height)
    (hcfree : c ∉ taken_spots s) :
    ((find_new_food_place s).1).map Food.pos = some c := by
  have h0 : free_spots s ≠ 0 := by omega
  obtain ⟨hW, hH⟩ := free_spots_pos_dims s h0
  obtain ⟨c0, hfc, hboard⟩ := find_some_board s hin h0
  have hboard_len := board_filter_length s.conf.width s.conf.height hW
    (taken_spots s) (taken_spots_nodup s) hin
  have hfree_eq : free_spots s =
      s.conf.width * s.conf.height - (taken_spots s).length := by
    unfold free_spots
    rw [Nat.mul_comm]
  have hlen1 : (((List.range' 0 (s.conf.width * s.conf.height)).map
      (ofIndex s.conf.width)).filter (fun c2 => !decide (c2 ∈ taken_spots s))).length
      = 1 := by omega
  obtain ⟨a, ha⟩ := List.length_eq_one.mp hlen1
  have hcmem : c ∈ (((List.range' 0 (s.conf.width * s.conf.height)).map
      (ofIndex s.conf.width)).filter (fun c2 => !decide (c2 ∈ taken_spots s))) := by
    rw [List.mem_filter]
    exact ⟨board_mem_scan s.conf.width s.conf.height hW hcx hcy, by simpa using hcfree⟩
  rw [ha] at hcmem hboard
  obtain rfl : c = a := by simpa using hcmem
  rw [h1, Nat.mod_one] at hboard
  simp only [List.getElem?_cons_zero, Option.some.injEq] at hboard
  rw [hfc, hboard]
  rfl

/-! ### C7: food sampler postcondition -/

/-- C7.  With every occupied cell inside the board: the sampler returns
nothing exactly when no cell is free (board area minus distinct occupied
cells is zero); any returned food sits on a free in-board cell; and when
exactly one free cell exists the returned food sits precisely on it. -/
theorem C7_food_sampler (s : GameState)
    (hin : ∀ c ∈ taken_spots s, c.x < s.conf.width ∧ c.y < s.conf.height) :
    ((find_new_food_place s).1 = none ↔ free_spots s = 0) ∧
    (∀ f, (find_new_food_place s).1 = some f →
      f.pos ∉ taken_spots s ∧ f.pos.x < s.conf.width ∧ f.pos.y < s.conf.height) ∧
    (∀ c : Coords, free_spots s = 1 → c.x < s.conf.width → c.y < s.conf.height →
      c ∉ taken_spots s → ((find_new_food_place s).1).map Food.pos = some c) :=
  ⟨find_none_iff s hin,
   fun _ hf => find_some_free s hin hf,
   fun _ h1 hcx hcy hcfree => find_unique_free s hin h1 hcx hcy hcfree⟩

/-- Witness for C7: a full 2×2 board returns nothing; a board with two free
cells returns a free in-board cell; a board with a single free cell (0,1)
returns precisely it. -/
theorem C7_food_sampler_witness :
    ((find_new_food_place stFull).1 = none ↔ free_spots stFull = 0) ∧
    ((⟨⟨0, 1⟩, 9⟩ : Food).pos ∉ taken_spots stSampler ∧
      (⟨⟨0, 1⟩, 9⟩ : Food).pos.x < stSampler.conf.width ∧
      (⟨⟨0, 1⟩, 9⟩ : Food).pos.y < stSampler.conf.height) ∧
    ((find_new_food_place stSampler1).1.map Food.pos = some ⟨0, 1⟩) :=
  ⟨(C7_food_sampler stFull (by decide)).1,
   (C7_food_sampler stSampler (by decide)).2.1 ⟨⟨0, 1⟩, 9⟩ (by decide),
   (C7_food_sampler stSampler1 (by decide)).2.2 ⟨0, 1⟩ (by decide) (by decide)
     (by decide) (by decide)⟩


/-! ### C5: in-bounds invariant -/

lemma headD_mem {α : Type} (l : List α) (d : α) (h : l ≠ []) : l.headD d ∈ l := by
  cases l with
  | nil => exact absurd rfl h
  | cons a t => simp

lemma getLastD_mem {α : Type} (l : List α) (d : α) (h : l ≠ []) :
    l.getLastD d ∈ l := by
  rw [List.getLastD_eq_getLast?, List.getLast?_eq_getLast l h]
  exact List.getLast_mem h

lemma move_wrapping_in_board (c : Coords) (d : Dir) (w h : Nat)
    (hw : 0 < w) (hh : 0 < h) (hx : c.x < w) (hy : c.y < h) :
    (c.move_wrapping d w h).x < w ∧ (c.move_wrapping d w h).y < h := by
  cases d <;> simp only [Coords.move_wrapping] <;>
    exact ⟨by first | exact hx | exact Nat.mod_lt _ hw,
           by first | exact hy | exact Nat.mod_lt _ hh⟩

lemma move_bumping_in_board {c : Coords} {d : Dir} {w h : Nat} {r : Coords}
    (hsome : c.move_bumping d w h = some r) (hx : c.x < w) (hy : c.y < h) :
    r.x < w ∧ r.y < h := by
  cases d <;> simp only [Coords.move_bumping] at hsome <;>
    split_ifs at hsome with hc <;>
    simp only [Option.some.injEq] at hsome <;>
    subst hsome <;>
    exact ⟨by simp <;> omega, by simp <;> omega⟩

lemma taken_in_board {s : GameState} (hWF : StateWF s) :
    ∀ c ∈ taken_spots s, c.x < s.conf.width ∧ c.y < s.conf.height := by
  intro c hc
  rw [taken_spots, List.mem_dedup, List.mem_append] at hc
  rcases hc with hc | hc
  · exact hWF.2.2.2.1 c hc
  · obtain ⟨f, hf, rfl⟩ := List.mem_map.mp hc
    exact hWF.2.2.2.2 f hf

/-- A food placed by the sampler on a well-formed state is in-board. -/
lemma find_wf {s : GameState} {f : Food} (hWF : StateWF s)
    (hf : (find_new_food_place s).1 = some f) :
    f.pos.x < s.conf.width ∧ f.pos.y < s.conf.height :=
  (find_some_free s (taken_in_board hWF) hf).2

/-- The food-placing loop preserves the in-bounds invariant. -/
lemma StateWF_place (n : Nat) : ∀ s : GameState, StateWF s →
    StateWF (place_n_foods n s) := by
  induction n with
  | zero => intro s h; exact h
  | succ m ih =>
    intro s hWF
    rw [place_n_foods]
    rcases hfd : find_new_food_place s with ⟨fo, r⟩
    cases fo with
    | none =>
      simp only
      obtain ⟨h1, h2, h3, h4, h5⟩ := hWF
      exact ⟨h1, h2, h3, h4, h5⟩
    | some f =>
      simp only
      refine ih _ ?_
      obtain ⟨h1, h2, h3, h4, h5⟩ := hWF
      have hfpos := find_wf ⟨h1, h2, h3, h4, h5⟩
        (by rw [hfd] : (find_new_food_place s).1 = some f)
      refine ⟨h1, h2, h3, h4, ?_⟩
      intro g hg
      rcases List.mem_append.mp hg with hg | hg
      · exact h5 g hg
      · obtain rfl : g = f := by simpa using hg
        exact hfpos

/-- Construction establishes the in-bounds invariant. -/
lemma StateWF_new (conf : GameConf) (rng0 : List Nat) (hvc : ValidConf conf) :
    StateWF (GameState.new conf rng0) := by
  obtain ⟨hw, hh, hl, hlw⟩ := hvc
  rw [GameState.new]
  refine StateWF_place conf.food_n _ ⟨hw, hh, ?_, ?_, by simp⟩
  · apply List.ne_nil_of_length_pos
    simp only [List.length_map, List.length_reverse, List.length_range']
    omega
  · intro c hc
    simp only [List.mem_map, List.mem_reverse, List.mem_range'_1] at hc
    obtain ⟨x, ⟨hx1, hx2⟩, rfl⟩ := hc
    constructor
    · simp only
      omega
    · simp only
      omega

/-- One step preserves the in-bounds invariant. -/
lemma StateWF_step (s : GameState) (turn : Option Dir) (hWF : StateWF s) :
    StateWF (make_step s turn) := by
  rw [make_step_eq_none_turn]
  have hWF1 : StateWF (apply_turn s turn) := by
    obtain ⟨h1, h2, h3, h4, h5⟩ := hWF
    cases turn <;> exact ⟨h1, h2, h3, h4, h5⟩
  generalize apply_turn s turn = s1 at hWF1
  clear hWF
  obtain ⟨hw, hh, hne, hsn, hfd⟩ := hWF1
  simp only [make_step, apply_turn]
  cases hc : candidate_head s1 with
  | none => exact ⟨hw, hh, hne, hsn, hfd⟩
  | some nh =>
    have hhead := hsn _ (headD_mem s1.snake ⟨0, 0⟩ hne)
    have hnh : nh.x < s1.conf.width ∧ nh.y < s1.conf.height := by
      rw [candidate_head] at hc
      split_ifs at hc with hsw
      · exact move_bumping_in_board hc hhead.1 hhead.2
      · simp only [Option.some.injEq] at hc
        subst hc
        exact move_wrapping_in_board _ _ _ _ hw hh hhead.1 hhead.2
    have hdrop : ∀ c ∈ s1.snake.dropLast,
        c.x < s1.conf.width ∧ c.y < s1.conf.height :=
      fun c hcm => hsn c (List.dropLast_subset s1.snake hcm)
    simp only [step_after_head]
    by_cases hmem : nh ∈ s1.snake.dropLast
    · rw [if_pos hmem]
      exact ⟨hw, hh, List.ne_nil_of_mem hmem, hdrop, hfd⟩
    · rw [if_neg hmem]
      cases hidx : s1.food.findIdx? (fun f => f.pos == nh) with
      | none =>
        refine ⟨hw, hh, by simp, ?_, hfd⟩
        intro c hcm
        rcases List.mem_cons.mp hcm with rfl | hcm
        · exact hnh
        · exact hdrop c hcm
      | some i =>
        simp only
        have hWFmid : StateWF { s1 with
            snake := nh :: s1.snake.dropLast ++ [s1.snake.getLastD ⟨0, 0⟩],
            food := s1.food.eraseIdx i } := by
          refine ⟨hw, hh, by simp, ?_, ?_⟩
          · intro c hcm
            simp only [List.mem_cons, List.mem_append, List.not_mem_nil,
              or_false] at hcm
            rcases hcm with (rfl | hcm) | rfl
            · exact hnh
            · exact hdrop c hcm
            · exact hsn _ (getLastD_mem s1.snake ⟨0, 0⟩ hne)
          · intro g hg
            exact hfd g (List.eraseIdx_subset _ _ hg)
        rcases hT : find_new_food_place { s1 with
            snake := nh :: s1.snake.dropLast ++ [s1.snake.getLastD ⟨0, 0⟩],
            food := s1.food.eraseIdx i } with ⟨fo, r⟩
        cases fo with
        | none =>
          simp only
          obtain ⟨k1, k2, k3, k4, k5⟩ := hWFmid
          exact ⟨k1, k2, k3, k4, k5⟩
        | some nf =>
          simp only
          obtain ⟨k1, k2, k3, k4, k5⟩ := hWFmid
          have hnf := find_wf ⟨k1, k2, k3, k4, k5⟩
            (by rw [hT] : (find_new_food_place _).1 = some nf)
          refine ⟨k1, k2, k3, k4, ?_⟩
          intro g hg
          rcases List.mem_append.mp hg with hg | hg
          · exact k5 g hg
          · obtain rfl : g = nf := by simpa using hg
            exact hnf

/-- C5.  For a valid config (positive board, 0 < initial length ≤ width) the
constructed state keeps every snake and food coordinate inside the board,
and `make_step` preserves this invariant (together with board positivity and
snake nonemptiness, as packaged in `StateWF`). -/
theorem C5_in_bounds (conf : GameConf) (rng0 : List Nat) (s : GameState)
    (turn : Option Dir) :
    (ValidConf conf → StateWF (GameState.new conf rng0)) ∧
    (StateWF s → StateWF (make_step s turn)) :=
  ⟨StateWF_new conf rng0, StateWF_step s turn⟩

/-- Witness for C5: the demo config produces a well-formed state, and a step
of the eating state stays well-formed. -/
theorem C5_in_bounds_witness :
    StateWF (GameState.new confDemo [7, 42]) ∧ StateWF (make_step stEat none) :=
  ⟨(C5_in_bounds confDemo [7, 42] stEat none).1
      (by unfold ValidConf; decide),
   (C5_in_bounds confDemo [7, 42] stEat none).2
      (by unfold StateWF; decide)⟩


/-! ### C10: food-count invariant -/

lemma make_step_conf (s : GameState) (turn : Option Dir) :
    (make_step s turn).conf = s.conf := by
  rw [make_step_eq_none_turn]
  rw [show s.conf = (apply_turn s turn).conf from (apply_turn_conf s turn).symm]
  generalize apply_turn s turn = s1
  obtain ⟨cf, sn, dir, fd, st0, sc, sp, rg⟩ := s1
  simp only [make_step, apply_turn]
  cases hc : candidate_head (GameState.mk cf sn dir fd st0 sc sp rg) with
  | none => rfl
  | some nh =>
    simp only [step_after_head]
    by_cases hmem : nh ∈ sn.dropLast
    · simp [hmem]
    · rw [if_neg hmem]
      cases hidx : fd.findIdx? (fun f => f.pos == nh) with
      | none => rfl
      | some i =>
        simp only
        rcases hT : find_new_food_place
            (GameState.mk cf (nh :: sn.dropLast ++ [sn.getLastD ⟨0, 0⟩]) dir
              (fd.eraseIdx i) st0 sc sp rg) with ⟨_ | nf, r⟩ <;> rfl

/-- The food count after a step is unchanged, unless the step ends in Win
(a food was eaten and no free cell was left for its replacement). -/
lemma make_step_food_cases (s : GameState) (turn : Option Dir) :
    (make_step s turn).food.length = s.food.length ∨
    (make_step s turn).status = .Win := by
  rw [make_step_eq_none_turn]
  rw [show s.food = (apply_turn s turn).food from (apply_turn_food s turn).symm]
  generalize apply_turn s turn = s1
  obtain ⟨cf, sn, dir, fd, st0, sc, sp, rg⟩ := s1
  simp only [make_step, apply_turn]
  cases hc : candidate_head (GameState.mk cf sn dir fd st0 sc sp rg) with
  | none => left; rfl
  | some nh =>
    simp only [step_after_head]
    by_cases hmem : nh ∈ sn.dropLast
    · left; simp [hmem]
    · rw [if_neg hmem]
      cases hidx : fd.findIdx? (fun f => f.pos == nh) with
      | none => left; rfl
      | some i =>
        simp only
        have hilen : i < fd.length := by
          have := findIdx?_some_lt (fun f => f.pos == nh) fd 0 i hidx
          omega
        rcases hT : find_new_food_place
            (GameState.mk cf (nh :: sn.dropLast ++ [sn.getLastD ⟨0, 0⟩]) dir
              (fd.eraseIdx i) st0 sc sp rg) with ⟨_ | nf, r⟩
        · right; rfl
        · left
          simp only [List.length_append, List.length_eraseIdx, if_pos hilen,
            List.length_cons, List.length_nil]
          omega

/-- A step whose result is still Ongoing keeps the number of food items. -/
lemma make_step_ongoing_food (s : GameState) (turn : Option Dir)
    (h : (make_step s turn).status = .Ongoing) :
    (make_step s turn).food.length = s.food.length := by
  rcases make_step_food_cases s turn with h1 | h1
  · exact h1
  · rw [h1] at h
    cases h

/-- The construction loop either places exactly its argument many food items
and keeps the status, or ends with status Win; the config is untouched. -/
lemma place_n_foods_props : ∀ (n : Nat) (s : GameState),
    ((place_n_foods n s).status = s.status ∧
      (place_n_foods n s).food.length = s.food.length + n ∧
      (place_n_foods n s).conf = s.conf) ∨
    ((place_n_foods n s).status = .Win ∧ (place_n_foods n s).conf = s.conf) := by
  intro n
  induction n with
  | zero => intro s; left; exact ⟨rfl, rfl, rfl⟩
  | succ m ih =>
    intro s
    rw [place_n_foods]
    rcases hfd : find_new_food_place s with ⟨fo, r⟩
    cases fo with
    | none => right; exact ⟨rfl, rfl⟩
    | some f =>
      simp only
      rcases ih { s with food := s.food ++ [f], rng := r } with ⟨h1, h2, h3⟩ | ⟨h1, h3⟩
      · left
        refine ⟨h1, ?_, h3⟩
        rw [h2]
        simp only [List.length_append, List.length_cons, List.length_nil]
        omega
      · right
        exact ⟨h1, h3⟩

/-- C10.  In every state reachable from construction by `make_step` calls,
an Ongoing status implies that the number of active food items equals the
configured `food_n`: construction places `food_n` items or declares Win, and
each eaten food is replaced by exactly one placement or the status leaves
Ongoing. -/
lemma new_eq_place (conf : GameConf) (rng0 : List Nat) :
    ∃ init : GameState, GameState.new conf rng0 = place_n_foods conf.food_n init ∧
      init.status = .Ongoing ∧ init.food = [] ∧ init.conf = conf :=
  ⟨_, rfl, rfl, rfl, rfl⟩

theorem C10_food_count (conf : GameConf) (rng0 : List Nat) (s : GameState)
    (hr : Reachable conf rng0 s) (hOn : s.status = .Ongoing) :
    s.food.length = s.conf.food_n := by
  induction hr with
  | base =>
    obtain ⟨init, hE, hSt, hFd, hCf⟩ := new_eq_place conf rng0
    rw [hE] at hOn ⊢
    rcases place_n_foods_props conf.food_n init with ⟨h1, h2, h3⟩ | ⟨h1, h3⟩
    · have h4 : init.food.length = 0 := by rw [hFd]; rfl
      rw [h2, h3, hCf, h4]
      omega
    · rw [h1] at hOn
      cases hOn
  | step s1 turn hr1 ih =>
    have hOn1 : s1.status = .Ongoing := by
      rcases make_step_status_cases s1 turn with h | h | h
      · rw [h] at hOn; exact hOn
      · rw [h] at hOn; cases hOn
      · rw [h] at hOn; cases hOn
    rw [make_step_ongoing_food s1 turn hOn, make_step_conf s1 turn]
    exact ih hOn1

/-- Witness for C10: the freshly constructed demo game is Ongoing and holds
exactly `food_n = 1` food item. -/
theorem C10_food_count_witness :
    (GameState.new confDemo [7, 42]).status = .Ongoing ∧
    (GameState.new confDemo [7, 42]).food.length =
      (GameState.new confDemo [7, 42]).conf.food_n :=
  ⟨by decide,
   C10_food_count confDemo [7, 42] (GameState.new confDemo [7, 42])
     Reachable.base (by decide)⟩

end Snek
